import Mathlib

/-!
Shallow embedding of tomwilkie/calstats (main.go): event categorisation,
recurring-event start-time resolution, half-day slot generation and the
slot-occupancy aggregation, together with theorems checking the
specification's claims about them.

Instants and durations are modelled as integers (nanoseconds, matching Go's
time.Time instants and time.Duration).  A calendar EventDateTime's DateTime
string is modelled as an optional instant: none models the empty string (as
on all-day events, where only the Date field is set), some t a parsed RFC3339
instant.  The compiled ignore-list regular expressions are external inputs and
are modelled as abstract predicates on strings, and the local-timezone weekday
and date-formatting functions of the slot generator are likewise abstract
parameters.
-/

namespace Calstats

/-- Go's time.Hour as a nanosecond count. -/
def Hour : Int := 3600 * 1000000000

/-- The DateTime field of calv3.EventDateTime: none models the empty string
(all-day events), some t a parsed RFC3339 instant. -/
structure EventDateTime where
  DateTime : Option Int
deriving DecidableEq

/-- The fields of calv3.EventAttendee read by main.go. -/
structure EventAttendee where
  Email : String
  ResponseStatus : String
deriving DecidableEq

/-- The field of calv3.Event.Creator read by main.go. -/
structure EventCreator where
  Self : Bool
deriving DecidableEq

/-- The fields of calv3.Event read by main.go. -/
structure Event where
  Summary : String
  Description : String
  Start : EventDateTime
  End : EventDateTime
  OriginalStartTime : Option EventDateTime
  Creator : Option EventCreator
  Attendees : List EventAttendee
deriving DecidableEq

/-- Category constant, main.go line 27. -/
def personal : String := "personal"

/-- Category constant, main.go line 28. -/
def ignore : String := "ignored"

/-- Category constant, main.go line 29. -/
def declined : String := "declined"

/-- Category constant, main.go line 30. -/
def notAccepted : String := "not accepted"

/-- Category constant, main.go line 31. -/
def hiring : String := "hiring"

/-- Category constant, main.go line 32. -/
def meeting : String := "meeting"

/-- The fixed category list, main.go line 35. -/
def categories : List String := [personal, ignore, declined, notAccepted, hiring, meeting]

/-- The sorted list of counted categories, main.go line 36; membership in it
is what sort.SearchStrings computes in processCalendar line 159. -/
def count : List String := [hiring, meeting]

/-- Substring search on character lists: sub occurs as a prefix of some
suffix. -/
def strContainsAux (sub : List Char) : List Char → Bool
  | [] => sub.isEmpty
  | a :: rest => sub.isPrefixOf (a :: rest) || strContainsAux sub rest

/-- Go's strings.Contains, on the underlying character lists. -/
def strContains (s sub : String) : Bool := strContainsAux sub.toList s.toList

/-- The recruiting link marker tested by categorise, main.go line 226. -/
def hiringMarker : String := "https://hire.lever.co/interviews"

/-- The created-by-self branch of categorise, main.go lines 232-239: both the
zero-attendee case and the single-self-attendee case sit inside the
"event.Creator != nil && event.Creator.Self" guard. -/
def selfPersonal (email : String) (event : Event) : Bool :=
  match event.Creator with
  | none => false
  | some c =>
    c.Self && (match event.Attendees with
               | [] => true
               | [a] => a.Email == email
               | _ :: _ :: _ => false)

/-- The attendee loop of categorise, main.go lines 249-259, with its early
returns: records whose email is not the viewer's, or whose response status is
accepted, are skipped; the first remaining record decides between declined and
not accepted. -/
def attendeeLoop (email : String) : List EventAttendee → String
  | [] => meeting
  | a :: rest =>
    if a.Email ≠ email then attendeeLoop email rest
    else if a.ResponseStatus = "declined" then declined
    else if a.ResponseStatus ≠ "accepted" then notAccepted
    else attendeeLoop email rest

/-- main.go categorise (lines 225-262): priority-ordered classification.
ignoreRegexps holds the compiled, anchored ignore patterns as abstract string
predicates applied to the event summary. -/
def categorise (email : String) (ignoreRegexps : List (String → Bool)) (event : Event) : String :=
  if strContains event.Description hiringMarker then hiring
  else if selfPersonal email event then personal
  else if ignoreRegexps.any (fun r => r event.Summary) then ignore
  else attendeeLoop email event.Attendees

theorem attendeeLoop_mem (email : String) (l : List EventAttendee) :
    attendeeLoop email l = declined ∨ attendeeLoop email l = notAccepted ∨
      attendeeLoop email l = meeting := by
  induction l with
  | nil => right; right; rfl
  | cons a rest ih =>
    simp only [attendeeLoop]
    split
    · exact ih
    · split
      · left; rfl
      · split
        · right; left; rfl
        · exact ih

/-- Claim C3: categorise always returns one of the six categories, and the
hiring rule has top priority: an event whose description contains the
recruiting link marker is classified hiring (so never personal), even when it
was also created by the viewer with no attendees. -/
theorem categorise_C3_categories :
    (∀ (email : String) (regs : List (String → Bool)) (event : Event),
      categorise email regs event ∈ categories) ∧
    (∀ (email : String) (regs : List (String → Bool)) (event : Event),
      strContains event.Description hiringMarker = true →
        categorise email regs event = hiring ∧ categorise email regs event ≠ personal) := by
  constructor
  · intro email regs event
    unfold categorise
    split
    · decide
    · split
      · decide
      · split
        · decide
        · rcases attendeeLoop_mem email event.Attendees with h | h | h <;> rw [h] <;> decide
  · intro email regs event hm
    have h : categorise email regs event = hiring := by
      unfold categorise
      rw [hm, if_pos rfl]
    rw [h]
    exact ⟨rfl, by decide⟩

def evC3 : Event :=
  ⟨"", "https://hire.lever.co/interviews", ⟨none⟩, ⟨none⟩, none, some ⟨true⟩, []⟩

/-- Witness for C3 at a concrete event carrying the hiring marker that was
also created by the viewer with no attendees. -/
theorem categorise_C3_categories_witness :
    categorise "a@x.com" [] evC3 ∈ categories ∧
    (categorise "a@x.com" [] evC3 = hiring ∧ categorise "a@x.com" [] evC3 ≠ personal) :=
  ⟨categorise_C3_categories.1 "a@x.com" [] evC3,
   categorise_C3_categories.2 "a@x.com" [] evC3 (by decide)⟩

/-- The personal rule as the claim reads it, with the creator condition
attached only to the zero-attendee disjunct. -/
def specPersonalRule (email : String) (event : Event) : Bool :=
  ((match event.Creator with
    | none => false
    | some c => c.Self) && event.Attendees.length == 0) ||
  (event.Attendees.length == 1 &&
    (event.Attendees.head?.elim false (fun a => a.Email == email)))

def evC2 : Event := ⟨"x", "", ⟨none⟩, ⟨none⟩, none, none, [⟨"a@x.com", "accepted"⟩]⟩

/-- Claim C2 counterexample: an event not created by the viewer whose only
attendee is the viewer satisfies the claim's personal condition (second
disjunct), the hiring rule does not match, yet categorise classifies it
meeting, because in the source both personal cases sit inside the
creator-self guard. -/
theorem categorise_C2_counterexample :
    specPersonalRule "a@x.com" evC2 = true ∧
    strContains evC2.Description hiringMarker = false ∧
    categorise "a@x.com" [] evC2 = meeting ∧
    categorise "a@x.com" [] evC2 ≠ personal := by decide

theorem selfPersonal_iff (email : String) (event : Event) :
    selfPersonal email event = true ↔
      ∃ c, event.Creator = some c ∧ c.Self = true ∧
        (event.Attendees = [] ∨ ∃ a, event.Attendees = [a] ∧ a.Email = email) := by
  unfold selfPersonal
  cases hc : event.Creator with
  | none => simp
  | some c =>
    cases ha : event.Attendees with
    | nil => simp [Bool.and_eq_true]
    | cons a rest =>
      cases rest with
      | nil => simp [Bool.and_eq_true, beq_iff_eq]
      | cons b rest2 => simp [Bool.and_eq_true]

/-- Claim C2 amended: given the hiring rule did not match, categorise returns
personal iff the event's creator record is present with Self set AND the
event has zero attendees or exactly one attendee whose email is the
viewer's. -/
theorem categorise_C2_personal (email : String) (regs : List (String → Bool)) (event : Event)
    (hn : strContains event.Description hiringMarker = false) :
    (categorise email regs event = personal ↔
      ∃ c, event.Creator = some c ∧ c.Self = true ∧
        (event.Attendees = [] ∨ ∃ a, event.Attendees = [a] ∧ a.Email = email)) := by
  have hrest : (if regs.any (fun r => r event.Summary) = true then ignore
                else attendeeLoop email event.Attendees) ≠ personal := by
    split
    · decide
    · rcases attendeeLoop_mem email event.Attendees with h | h | h <;> rw [h] <;> decide
  rw [← selfPersonal_iff email event]
  unfold categorise
  rw [hn, if_neg Bool.false_ne_true]
  cases hsp : selfPersonal email event with
  | false =>
    rw [if_neg Bool.false_ne_true]
    exact iff_of_false hrest Bool.false_ne_true
  | true =>
    rw [if_pos rfl]
    exact iff_of_true rfl rfl

def evC2w : Event := ⟨"Focus time", "", ⟨none⟩, ⟨none⟩, none, some ⟨true⟩, []⟩

/-- Witness for the amended C2 at a concrete viewer-created event with zero
attendees. -/
theorem categorise_C2_personal_witness :
    categorise "a@x.com" [] evC2w = personal :=
  (categorise_C2_personal "a@x.com" [] evC2w (by decide)).mpr ⟨⟨true⟩, rfl, rfl, Or.inl rfl⟩

/-- The not-accepted rule as the claim reads it: some attendee record with the
viewer's email whose response status is present (nonempty) and not
accepted. -/
def specNotAcceptedRule (email : String) (event : Event) : Bool :=
  event.Attendees.any
    (fun a => a.Email == email && a.ResponseStatus != "" && a.ResponseStatus != "accepted")

def evC9 : Event := ⟨"x", "", ⟨none⟩, ⟨none⟩, none, none, [⟨"a@x.com", ""⟩]⟩

/-- Claim C9 counterexample: the viewer's attendee record has an empty
(absent) response status, and rules 1-4 do not match; the claim says the
event must then not be classified not-accepted, but categorise returns
not accepted, because the source only tests that the status differs from
accepted. -/
theorem categorise_C9_counterexample :
    specNotAcceptedRule "a@x.com" evC9 = false ∧
    strContains evC9.Description hiringMarker = false ∧
    selfPersonal "a@x.com" evC9 = false ∧
    categorise "a@x.com" [] evC9 ≠ declined ∧
    categorise "a@x.com" [] evC9 = notAccepted := by decide

theorem attendeeLoop_notAccepted (email : String) (l : List EventAttendee)
    (hd : attendeeLoop email l ≠ declined) :
    (attendeeLoop email l = notAccepted ↔
      ∃ a ∈ l, a.Email = email ∧ a.ResponseStatus ≠ "accepted") := by
  induction l with
  | nil => simp [attendeeLoop]; decide
  | cons a rest ih =>
    by_cases he : a.Email = email
    · by_cases hdp : a.ResponseStatus = "declined"
      · exfalso
        apply hd
        simp [attendeeLoop, he, hdp]
      · by_cases hacc : a.ResponseStatus = "accepted"
        · have hstep : attendeeLoop email (a :: rest) = attendeeLoop email rest := by
            simp [attendeeLoop, he, hdp, hacc]
          rw [hstep] at hd ⊢
          rw [ih hd]
          simp [he, hacc]
        · have hstep : attendeeLoop email (a :: rest) = notAccepted := by
            simp [attendeeLoop, he, hdp, hacc]
          rw [hstep]
          simp only [true_iff]
          exact ⟨a, List.mem_cons_self a rest, he, hacc⟩
    · have hstep : attendeeLoop email (a :: rest) = attendeeLoop email rest := by
        simp [attendeeLoop, he]
      rw [hstep] at hd ⊢
      rw [ih hd]
      simp [he]

/-- Claim C9 amended: given rules 1-4 did not match (hiring, personal and
ignored do not apply and the result is not declined), categorise returns
not accepted iff some attendee record with the viewer's email has a response
status other than accepted — an empty (absent) response status also
qualifies. -/
theorem categorise_C9_notAccepted (email : String) (regs : List (String → Bool)) (event : Event)
    (h1 : strContains event.Description hiringMarker = false)
    (h2 : selfPersonal email event = false)
    (h3 : regs.any (fun r => r event.Summary) = false)
    (h4 : categorise email regs event ≠ declined) :
    (categorise email regs event = notAccepted ↔
      ∃ a ∈ event.Attendees, a.Email = email ∧ a.ResponseStatus ≠ "accepted") := by
  have hc : categorise email regs event = attendeeLoop email event.Attendees := by
    unfold categorise
    rw [h1, if_neg Bool.false_ne_true, h2, if_neg Bool.false_ne_true, h3,
      if_neg Bool.false_ne_true]
  rw [hc] at h4 ⊢
  exact attendeeLoop_notAccepted email event.Attendees h4

def evC9w : Event := ⟨"x", "", ⟨none⟩, ⟨none⟩, none, none, [⟨"a@x.com", "tentative"⟩]⟩

/-- Witness for the amended C9 at a concrete event with a tentative viewer
response. -/
theorem categorise_C9_notAccepted_witness :
    categorise "a@x.com" [] evC9w = notAccepted :=
  (categorise_C9_notAccepted "a@x.com" [] evC9w (by decide) (by decide) (by decide)
      (by decide)).mpr ⟨⟨"a@x.com", "tentative"⟩, by decide, rfl, by decide⟩

/-- main.go parseStartEnd (lines 182-223).  The declared start is parsed
first; when an OriginalStartTime is present the source parses
event.Start.DateTime again (line 205) into originalStart — not
event.OriginalStartTime.DateTime — and keeps the later of the two; the end is
parsed from event.End.DateTime.  A parse failure of an empty/absent field is
none. -/
def parseStartEnd (event : Event) : Option (Int × Int) :=
  match event.Start.DateTime with
  | none => none
  | some start =>
    match event.OriginalStartTime with
    | none =>
      match event.End.DateTime with
      | none => none
      | some e => some (start, e)
    | some _ =>
      match event.Start.DateTime with
      | none => none
      | some originalStart =>
        match event.End.DateTime with
        | none => none
        | some e => some ((if start < originalStart then originalStart else start), e)

/-- Modelled from the spec (section 4.2), for comparison with parseStartEnd:
the effective start is the later of the declared start and the original start
time; the effective end is the effective start plus the nominal duration
(declared end minus declared start). -/
def parseStartEndSpec (event : Event) : Option (Int × Int) :=
  match event.Start.DateTime with
  | none => none
  | some start =>
    match event.End.DateTime with
    | none => none
    | some e =>
      match event.OriginalStartTime with
      | none => some (start, e)
      | some o =>
        match o.DateTime with
        | none => none
        | some os =>
          some (max start os, max start os + (e - start))

def evC1 : Event := ⟨"", "", ⟨some 100⟩, ⟨some 400⟩, some ⟨some 200⟩, none, []⟩

/-- Claim C1: on a recurring-series instance whose original start time (200)
is strictly after its declared start (100), the resolver of the source
returns the declared start 100, not the original start: main.go line 205
parses event.Start.DateTime into originalStart instead of
event.OriginalStartTime.DateTime, so the comparison guard never fires.  The
spec's resolver would return 200. -/
theorem parseStartEnd_C1_bug :
    parseStartEnd evC1 = some (100, 400) ∧
    parseStartEndSpec evC1 = some (200, 500) ∧
    (∀ event : Event, ∀ s e : Int, parseStartEnd event = some (s, e) →
      event.Start.DateTime = some s) := by
  refine ⟨rfl, rfl, ?_⟩
  intro event s e h
  unfold parseStartEnd at h
  cases hs : event.Start.DateTime with
  | none => simp [hs] at h
  | some start =>
    cases ho : event.OriginalStartTime with
    | none =>
      cases he : event.End.DateTime with
      | none => simp [hs, ho, he] at h
      | some e2 =>
        simp [hs, ho, he] at h
        rw [h.1]
    | some o =>
      cases he : event.End.DateTime with
      | none => simp [hs, ho, he] at h
      | some e2 =>
        simp [hs, ho, he] at h
        rw [h.1]

/-- main.go slot struct (lines 264-267); the source's end field is named
end_ here because end is a Lean keyword. -/
structure Slot where
  summary : String
  start : Int
  end_ : Int
deriving DecidableEq

/-- The overlap test of processCalendar, main.go line 148: the event is
considered in the slot iff start.Before(slot.end) and end.After(slot.start). -/
def overlaps (s e : Int) (slot : Slot) : Bool :=
  decide (s < slot.end_) && decide (e > slot.start)

/-- The accumulator of processCalendar (main.go lines 126-128): the free-slot
counter, the running counted-category duration, and the per-category duration
map (a total map defaulting to 0, as a Go map read does). -/
structure Acc where
  freeSlots : Nat
  totalMeetings : Int
  totals : String → Int

/-- One iteration of the inner event loop of processCalendar (lines 137-163),
acting on the pair (accumulator, meetingFound): all-day events (empty
Start.DateTime) are skipped; a time parse failure aborts the whole calendar;
otherwise, when the event overlaps the slot, the full event duration is added
to its category bucket and, if the category is in count (what the
sort.SearchStrings test on line 159 decides), to the meeting total, also
setting the meetingFound flag. -/
def stepEvent (email : String) (regs : List (String → Bool)) (slot : Slot)
    (p : Acc × Bool) (event : Event) : Option (Acc × Bool) :=
  match event.Start.DateTime with
  | none => some p
  | some _ =>
    match parseStartEnd event with
    | none => none
    | some (s, e) =>
      if overlaps s e slot then
        some (⟨p.1.freeSlots,
               if count.contains (categorise email regs event)
               then p.1.totalMeetings + (e - s) else p.1.totalMeetings,
               fun c => if c = categorise email regs event
                        then p.1.totals c + (e - s) else p.1.totals c⟩,
              p.2 || count.contains (categorise email regs event))
      else some p

/-- One iteration of the outer slot loop of processCalendar (lines 130-167):
run the event loop with a fresh meetingFound flag, then count the slot as free
when no counted event occupied it. -/
def processSlot (email : String) (regs : List (String → Bool)) (events : List Event)
    (acc : Acc) (slot : Slot) : Option Acc :=
  match events.foldlM (stepEvent email regs slot) (acc, false) with
  | none => none
  | some (a, meetingFound) =>
    some (if meetingFound then a else ⟨a.freeSlots + 1, a.totalMeetings, a.totals⟩)

/-- The aggregation of main.go processCalendar (lines 126-167): fold the slots
over processSlot starting from the zero accumulator. -/
def processCalendar (email : String) (regs : List (String → Bool))
    (slots : List Slot) (events : List Event) : Option Acc :=
  slots.foldlM (processSlot email regs events) ⟨0, 0, fun _ => 0⟩

/-- A single event occupies a slot when it is not all-day, its times parse,
its resolved interval overlaps the slot and its category is counted. -/
def eventOccupies (email : String) (regs : List (String → Bool)) (slot : Slot)
    (event : Event) : Bool :=
  match event.Start.DateTime with
  | none => false
  | some _ =>
    match parseStartEnd event with
    | none => false
    | some (s, e) => overlaps s e slot && count.contains (categorise email regs event)

/-- A slot is occupied when some event occupies it. -/
def slotOccupied (email : String) (regs : List (String → Bool)) (events : List Event)
    (slot : Slot) : Bool :=
  events.any (eventOccupies email regs slot)

/-- Claim C4: the aggregator's overlap test is strict half-open: an event is
considered in a slot iff event.start < slot.end and event.end > slot.start;
an event ending exactly at the slot's start or starting exactly at the slot's
end does not overlap, and a non-overlapping event leaves the event-loop state
unchanged. -/
theorem overlaps_C4_halfOpen (s e : Int) (slot : Slot) :
    (overlaps s e slot = true ↔ (s < slot.end_ ∧ e > slot.start)) ∧
    (e = slot.start → overlaps s e slot = false) ∧
    (s = slot.end_ → overlaps s e slot = false) ∧
    (∀ (email : String) (regs : List (String → Bool)) (p : Acc × Bool) (event : Event),
      parseStartEnd event = some (s, e) → overlaps s e slot = false →
      stepEvent email regs slot p event = some p) := by
  refine ⟨?_, ?_, ?_, ?_⟩
  · simp [overlaps]
  · intro h
    subst h
    simp [overlaps]
  · intro h
    subst h
    simp [overlaps]
  · intro email regs p event hp hov
    unfold stepEvent
    cases hs : event.Start.DateTime with
    | none => rfl
    | some s0 =>
      simp only [hp]
      rw [hov, if_neg Bool.false_ne_true]

def slotW4 : Slot := ⟨"s", 0, 6 * Hour⟩

def evW4 : Event := ⟨"", "", ⟨some (6 * Hour)⟩, ⟨some 0⟩, none, none, []⟩

/-- Witness for C4: an event whose interval ends exactly at the slot's start
and starts exactly at its end does not overlap it and is skipped by the event
loop. -/
theorem overlaps_C4_halfOpen_witness :
    overlaps (6 * Hour) 0 slotW4 = false ∧
    stepEvent "a@x.com" [] slotW4 (⟨0, 0, fun _ => 0⟩, false) evW4 =
      some (⟨0, 0, fun _ => 0⟩, false) := by
  have h2 : overlaps (6 * Hour) 0 slotW4 = false :=
    (overlaps_C4_halfOpen (6 * Hour) 0 slotW4).2.1 rfl
  exact ⟨h2,
    (overlaps_C4_halfOpen (6 * Hour) 0 slotW4).2.2.2 "a@x.com" []
      (⟨0, 0, fun _ => 0⟩, false) evW4 rfl h2⟩

theorem stepEvent_some (email : String) (regs : List (String → Bool)) (slot : Slot)
    (p q : Acc × Bool) (event : Event)
    (h : stepEvent email regs slot p event = some q) :
    q.1.freeSlots = p.1.freeSlots ∧
    q.2 = (p.2 || eventOccupies email regs slot event) := by
  unfold stepEvent at h
  unfold eventOccupies
  cases hs : event.Start.DateTime with
  | none =>
    simp only [hs] at h
    cases h
    simp
  | some s0 =>
    simp only [hs] at h
    cases hp : parseStartEnd event with
    | none =>
      simp only [hp] at h
      exact Option.noConfusion h
    | some se =>
      obtain ⟨s, e⟩ := se
      simp only [hp] at h
      cases hov : overlaps s e slot with
      | false =>
        rw [hov, if_neg Bool.false_ne_true] at h
        cases h
        simp [hov]
      | true =>
        rw [hov, if_pos rfl] at h
        cases h
        simp [hov]

theorem foldlM_stepEvent_some (email : String) (regs : List (String → Bool)) (slot : Slot)
    (events : List Event) :
    ∀ p q : Acc × Bool, events.foldlM (stepEvent email regs slot) p = some q →
      q.1.freeSlots = p.1.freeSlots ∧
      q.2 = (p.2 || slotOccupied email regs events slot) := by
  induction events with
  | nil =>
    intro p q h
    simp only [List.foldlM_nil, Option.pure_def, Option.some.injEq] at h
    subst h
    simp [slotOccupied]
  | cons ev rest ih =>
    intro p q h
    rw [List.foldlM_cons] at h
    cases hstep : stepEvent email regs slot p ev with
    | none => rw [hstep] at h; cases h
    | some p1 =>
      rw [hstep] at h
      simp only [Option.bind_eq_bind, Option.some_bind] at h
      obtain ⟨hf1, hb1⟩ := stepEvent_some email regs slot p p1 ev hstep
      obtain ⟨hf2, hb2⟩ := ih p1 q h
      refine ⟨hf2.trans hf1, ?_⟩
      rw [hb2, hb1]
      simp [slotOccupied, Bool.or_assoc]

theorem processSlot_freeSlots (email : String) (regs : List (String → Bool))
    (events : List Event) (acc : Acc) (slot : Slot) (a : Acc)
    (h : processSlot email regs events acc slot = some a) :
    a.freeSlots = acc.freeSlots +
      (if slotOccupied email regs events slot then 0 else 1) := by
  unfold processSlot at h
  cases hf : events.foldlM (stepEvent email regs slot) (acc, false) with
  | none => rw [hf] at h; cases h
  | some pq =>
    rw [hf] at h
    obtain ⟨hfree, hocc⟩ := foldlM_stepEvent_some email regs slot events _ _ hf
    rw [Bool.false_or] at hocc
    simp only [Option.some.injEq] at h
    subst h
    rw [← hocc]
    cases hb : pq.2 with
    | false => simp [hb] at hfree ⊢; omega
    | true => simp [hb] at hfree ⊢; omega

theorem processCalendar_foldl_freeSlots (email : String) (regs : List (String → Bool))
    (events : List Event) :
    ∀ (slots : List Slot) (acc0 acc : Acc),
      slots.foldlM (processSlot email regs events) acc0 = some acc →
      acc.freeSlots = acc0.freeSlots +
        slots.countP (fun slot => !(slotOccupied email regs events slot)) := by
  intro slots
  induction slots with
  | nil =>
    intro acc0 acc h
    simp only [List.foldlM_nil, Option.pure_def, Option.some.injEq] at h
    subst h
    simp
  | cons slot rest ih =>
    intro acc0 acc h
    rw [List.foldlM_cons] at h
    cases hstep : processSlot email regs events acc0 slot with
    | none => rw [hstep] at h; cases h
    | some a1 =>
      rw [hstep] at h
      simp only [Option.bind_eq_bind, Option.some_bind] at h
      have h1 := processSlot_freeSlots email regs events acc0 slot a1 hstep
      have h2 := ih a1 acc h
      rw [h2, h1, List.countP_cons]
      cases hb : slotOccupied email regs events slot with
      | false =>
        simp [hb]
        omega
      | true => simp [hb]

theorem countP_not_add_countP {α : Type} (p : α → Bool) (l : List α) :
    l.countP (fun a => !(p a)) + l.countP p = l.length := by
  induction l with
  | nil => rfl
  | cons a t ih =>
    cases hp : p a with
    | false =>
      simp [List.countP_cons, hp]
      omega
    | true =>
      simp [List.countP_cons, hp]
      omega

/-- Claim C5: on every successful aggregation the free-slot count is the
number of slots occupied by no counted-category event, and free plus occupied
slots together exhaust the generated slots. -/
theorem processCalendar_C5_freeSlots (email : String) (regs : List (String → Bool))
    (slots : List Slot) (events : List Event) (acc : Acc)
    (h : processCalendar email regs slots events = some acc) :
    acc.freeSlots = slots.countP (fun slot => !(slotOccupied email regs events slot)) ∧
    acc.freeSlots + slots.countP (fun slot => slotOccupied email regs events slot) =
      slots.length := by
  have h1 := processCalendar_foldl_freeSlots email regs events slots ⟨0, 0, fun _ => 0⟩ acc h
  simp only [Nat.zero_add] at h1
  exact ⟨h1, by rw [h1]; exact countP_not_add_countP _ slots⟩

def slotW5 : Slot := ⟨"s", 0, 6 * Hour⟩

def accW5 : Acc := ⟨1, 0, fun _ => 0⟩

/-- Witness for C5 on a one-slot, zero-event calendar: the single slot is
free. -/
theorem processCalendar_C5_freeSlots_witness :
    processCalendar "a@x.com" [] [slotW5] [] = some accW5 ∧
    (accW5.freeSlots = List.countP (fun slot => !(slotOccupied "a@x.com" [] [] slot)) [slotW5] ∧
     accW5.freeSlots + List.countP (fun slot => slotOccupied "a@x.com" [] [] slot) [slotW5] =
       [slotW5].length) :=
  ⟨rfl, processCalendar_C5_freeSlots "a@x.com" [] [slotW5] [] accW5 rfl⟩

theorem foldlM_stepEvent_filter (email : String) (regs : List (String → Bool)) (slot : Slot)
    (events : List Event) :
    ∀ p : Acc × Bool,
      (events.filter (fun ev => ev.Start.DateTime.isSome)).foldlM
          (stepEvent email regs slot) p =
        events.foldlM (stepEvent email regs slot) p := by
  induction events with
  | nil => intro p; rfl
  | cons ev rest ih =>
    intro p
    cases hs : ev.Start.DateTime with
    | none =>
      have hdrop : (ev :: rest).filter (fun e2 => e2.Start.DateTime.isSome) =
          rest.filter (fun e2 => e2.Start.DateTime.isSome) := by
        simp [List.filter_cons, hs]
      have hid : stepEvent email regs slot p ev = some p := by
        unfold stepEvent
        simp only [hs]
      rw [hdrop, List.foldlM_cons, hid]
      simp only [Option.bind_eq_bind, Option.some_bind]
      exact ih p
    | some s0 =>
      have hkeep : (ev :: rest).filter (fun e2 => e2.Start.DateTime.isSome) =
          ev :: rest.filter (fun e2 => e2.Start.DateTime.isSome) := by
        simp [List.filter_cons, hs]
      rw [hkeep, List.foldlM_cons, List.foldlM_cons]
      cases hstep : stepEvent email regs slot p ev with
      | none => rfl
      | some p1 =>
        simp only [Option.bind_eq_bind, Option.some_bind]
        exact ih p1

theorem processSlot_filter (email : String) (regs : List (String → Bool))
    (events : List Event) :
    processSlot email regs (events.filter (fun ev => ev.Start.DateTime.isSome)) =
      processSlot email regs events := by
  funext acc slot
  unfold processSlot
  rw [foldlM_stepEvent_filter email regs slot events (acc, false)]

/-- Claim C6: removing the all-day events (those whose Start carries no
DateTime) leaves the aggregation — slot occupancy, every per-category
duration, the meeting total and the free-slot count — unchanged. -/
theorem processCalendar_C6_allDay (email : String) (regs : List (String → Bool))
    (slots : List Slot) (events : List Event) :
    processCalendar email regs slots (events.filter (fun ev => ev.Start.DateTime.isSome)) =
      processCalendar email regs slots events := by
  unfold processCalendar
  rw [processSlot_filter]

theorem processSlot_single (email : String) (regs : List (String → Bool)) (ev : Event)
    (s e : Int) (hp : parseStartEnd ev = some (s, e)) (acc : Acc) (slot : Slot) :
    processSlot email regs [ev] acc slot =
      some (if overlaps s e slot
            then ⟨acc.freeSlots + (if count.contains (categorise email regs ev) then 0 else 1),
                  if count.contains (categorise email regs ev)
                  then acc.totalMeetings + (e - s) else acc.totalMeetings,
                  fun c => if c = categorise email regs ev
                           then acc.totals c + (e - s) else acc.totals c⟩
            else ⟨acc.freeSlots + 1, acc.totalMeetings, acc.totals⟩) := by
  unfold processSlot
  simp only [List.foldlM_cons, List.foldlM_nil]
  unfold stepEvent
  cases hs : ev.Start.DateTime with
  | none =>
    exfalso
    unfold parseStartEnd at hp
    simp only [hs] at hp
    exact Option.noConfusion hp
  | some s0 =>
    simp only [hp]
    cases hov : overlaps s e slot with
    | false =>
      rw [if_neg Bool.false_ne_true]
      simp
    | true =>
      rw [if_pos rfl]
      simp only [Option.bind_eq_bind, Option.some_bind, Option.pure_def]
      cases hcnt : count.contains (categorise email regs ev) with
      | false => simp [hcnt]
      | true => simp [hcnt]

theorem processCalendar_C7_aux (email : String) (regs : List (String → Bool)) (ev : Event)
    (s e : Int) (hp : parseStartEnd ev = some (s, e)) :
    ∀ (slots : List Slot) (acc0 acc : Acc),
      slots.foldlM (processSlot email regs [ev]) acc0 = some acc →
      acc.totals (categorise email regs ev) =
        acc0.totals (categorise email regs ev) +
          (slots.countP (fun slot => overlaps s e slot) : Int) * (e - s) ∧
      acc.totalMeetings =
        acc0.totalMeetings +
          (if count.contains (categorise email regs ev)
           then (slots.countP (fun slot => overlaps s e slot) : Int) * (e - s) else 0) := by
  intro slots
  induction slots with
  | nil =>
    intro acc0 acc h
    simp only [List.foldlM_nil, Option.pure_def, Option.some.injEq] at h
    subst h
    simp
  | cons slot rest ih =>
    intro acc0 acc h
    rw [List.foldlM_cons, processSlot_single email regs ev s e hp acc0 slot] at h
    simp only [Option.bind_eq_bind, Option.some_bind] at h
    have hr := ih _ acc h
    cases hov : overlaps s e slot with
    | false =>
      rw [hov, if_neg Bool.false_ne_true] at hr
      obtain ⟨h1, h2⟩ := hr
      constructor
      · rw [h1]
        simp only [List.countP_cons, hov]
        push_cast
        ring
      · rw [h2]
        cases hcnt : count.contains (categorise email regs ev) <;>
          simp only [hcnt, if_pos, if_neg, Bool.false_ne_true, List.countP_cons, hov] <;>
          push_cast <;> ring
    | true =>
      rw [hov, if_pos rfl] at hr
      obtain ⟨h1, h2⟩ := hr
      constructor
      · rw [h1]
        simp only [if_pos rfl, List.countP_cons, hov]
        push_cast
        ring
      · rw [h2]
        cases hcnt : count.contains (categorise email regs ev) with
        | false =>
          simp only [hcnt, Bool.false_eq_true, if_false, List.countP_cons, hov]
        | true =>
          simp only [hcnt, if_true, List.countP_cons, hov]
          push_cast
          ring

/-- Claim C7: a single event contributes its full duration once per
overlapping slot: after aggregating one event over a slot list, its category
bucket holds (number of overlapped slots) times its duration, and if the
category is counted, so does the meeting total. -/
theorem processCalendar_C7_perSlot (email : String) (regs : List (String → Bool))
    (slots : List Slot) (ev : Event) (s e : Int) (acc : Acc)
    (hp : parseStartEnd ev = some (s, e))
    (h : processCalendar email regs slots [ev] = some acc) :
    acc.totals (categorise email regs ev) =
      (slots.countP (fun slot => overlaps s e slot) : Int) * (e - s) ∧
    (count.contains (categorise email regs ev) = true →
      acc.totalMeetings =
        (slots.countP (fun slot => overlaps s e slot) : Int) * (e - s)) := by
  have hr := processCalendar_C7_aux email regs ev s e hp slots ⟨0, 0, fun _ => 0⟩ acc h
  constructor
  · have := hr.1
    simpa using this
  · intro hc
    have := hr.2
    rw [hc, if_pos rfl] at this
    simpa using this

def slotsW7 : List Slot := [⟨"m", 0, 6 * Hour⟩, ⟨"a", 6 * Hour, 12 * Hour⟩]

def evW7 : Event := ⟨"", "", ⟨some (5 * Hour)⟩, ⟨some (7 * Hour)⟩, none, none, []⟩

def accW7 : Acc := (processCalendar "a@x.com" [] slotsW7 [evW7]).getD ⟨0, 0, fun _ => 0⟩

/-- Witness for C7: a meeting spanning both half-day slots of one day is
counted twice, once per slot. -/
theorem processCalendar_C7_perSlot_witness :
    accW7.totals (categorise "a@x.com" [] evW7) =
      (List.countP (fun slot => overlaps (5 * Hour) (7 * Hour) slot) slotsW7 : Int) *
        (7 * Hour - 5 * Hour) ∧
    accW7.totalMeetings =
      (List.countP (fun slot => overlaps (5 * Hour) (7 * Hour) slot) slotsW7 : Int) *
        (7 * Hour - 5 * Hour) :=
  ⟨(processCalendar_C7_perSlot "a@x.com" [] slotsW7 evW7 (5 * Hour) (7 * Hour) accW7
      rfl rfl).1,
   (processCalendar_C7_perSlot "a@x.com" [] slotsW7 evW7 (5 * Hour) (7 * Hour) accW7
      rfl rfl).2 (by decide)⟩

/-- The meeting-load percentage of the summary row, main.go line 173:
totalMeetings*100/(40*time.Hour) in Go's int64 Duration arithmetic, whose
division truncates toward zero (Int.tdiv). -/
def percentMeetings (totalMeetings : Int) : Int :=
  Int.tdiv (totalMeetings * 100) (40 * Hour)

def slotC8 : Slot := ⟨"s", 0, 6 * Hour⟩

def evC8 : Event := ⟨"", "", ⟨some (5 * Hour)⟩, ⟨some (4 * Hour)⟩, none, none, []⟩

/-- Claim C8 counterexample: an inverted event interval (declared end one
hour before declared start) passes the overlap test and is counted, driving
the counted total to minus one hour; there the code's truncating division
yields -2 while the floor demanded by the claim is -3. -/
theorem percentMeetings_C8_counterexample :
    (processCalendar "a@x.com" [] [slotC8] [evC8]).map Acc.totalMeetings =
      some (-(1 * Hour)) ∧
    percentMeetings (-(1 * Hour)) = -2 ∧
    Int.fdiv (-(1 * Hour) * 100) (40 * Hour) = -3 := by decide

/-- Claim C8 amended: the load percentage is the truncation toward zero of
total counted duration times 100 over 40 hours, which agrees with the
claimed floor whenever the counted total is nonnegative; 40 hours of counted
duration yields 100 percent and 20 hours yields 50 percent. -/
theorem percentMeetings_C8_floor (t : Int) :
    (0 ≤ t → percentMeetings t = Int.fdiv (t * 100) (40 * Hour)) ∧
    percentMeetings (40 * Hour) = 100 ∧
    percentMeetings (20 * Hour) = 50 := by
  refine ⟨?_, by decide, by decide⟩
  intro ht
  unfold percentMeetings
  rw [Int.tdiv_eq_ediv (by omega) (by decide), Int.fdiv_eq_ediv _ (by decide)]

/-- Witness for the amended C8 at the claim's own example. -/
theorem percentMeetings_C8_floor_witness :
    percentMeetings (40 * Hour) = Int.fdiv (40 * Hour * 100) (40 * Hour) ∧
    percentMeetings (40 * Hour) = 100 ∧
    percentMeetings (20 * Hour) = 50 :=
  ⟨(percentMeetings_C8_floor (40 * Hour)).1 (by decide),
   (percentMeetings_C8_floor (40 * Hour)).2⟩

/-- The two half-day slots of one working day, main.go lines 288-299: Morning
[curr, curr+6h) then Afternoon [curr+6h, curr+12h), with the formatted day
prefix supplied by the abstract fmtDay (Go's curr.Format). -/
def slotPair (fmtDay : Int → String) (curr : Int) : List Slot :=
  [⟨fmtDay curr ++ " Morning", curr, curr + 6 * Hour⟩,
   ⟨fmtDay curr ++ " Afternoon", curr + 6 * Hour, curr + 12 * Hour⟩]

/-- The loop of workingSlots (main.go lines 283-300), stepping 24 hours at a
time while curr < end, skipping Saturdays (weekday 6) and Sundays (weekday
0); wd abstracts Go's curr.Weekday() in the calendar's timezone.  The fuel
argument bounds the iteration count; workingSlots supplies enough for the
whole window. -/
def workingSlotsLoop (wd : Int → Nat) (fmtDay : Int → String) (endT : Int) :
    Nat → Int → List Slot
  | 0, _ => []
  | fuel + 1, curr =>
    if curr < endT then
      if wd curr = 6 ∨ wd curr = 0 then
        workingSlotsLoop wd fmtDay endT fuel (curr + 24 * Hour)
      else
        slotPair fmtDay curr ++ workingSlotsLoop wd fmtDay endT fuel (curr + 24 * Hour)
    else []

/-- main.go workingSlots (lines 269-303), after timezone and start-string
resolution: the slots of the window [start, start + durationHours hours). -/
def workingSlots (wd : Int → Nat) (fmtDay : Int → String) (start : Int)
    (durationHours : Nat) : List Slot :=
  workingSlotsLoop wd fmtDay (start + (durationHours : Int) * Hour) (durationHours + 1) start

/-- The slots generated for day number k of the window: none when its weekday
is Saturday or Sunday, otherwise the morning/afternoon pair. -/
def daySlots (wd : Int → Nat) (fmtDay : Int → String) (start : Int) (k : Nat) : List Slot :=
  if wd (start + (k : Int) * (24 * Hour)) = 6 ∨ wd (start + (k : Int) * (24 * Hour)) = 0
  then []
  else slotPair fmtDay (start + (k : Int) * (24 * Hour))

theorem workingSlotsLoop_eq (wd : Int → Nat) (fmtDay : Int → String) (start : Int) (D : Nat) :
    ∀ (fuel m : Nat), (D + 23) / 24 ≤ m + fuel →
      workingSlotsLoop wd fmtDay (start + (D : Int) * Hour) fuel
          (start + (m : Int) * (24 * Hour)) =
        (List.range' m ((D + 23) / 24 - m)).flatMap (daySlots wd fmtDay start) := by
  intro fuel
  induction fuel with
  | zero =>
    intro m hm
    have h0 : (D + 23) / 24 - m = 0 := by omega
    rw [h0]
    rfl
  | succ fuel ih =>
    intro m hm
    by_cases hlt : m < (D + 23) / 24
    · have hguard : start + (m : Int) * (24 * Hour) < start + (D : Int) * Hour := by
        have h24 : 24 * m < D := by omega
        simp only [Hour]
        push_cast
        omega
      have hsplit : (D + 23) / 24 - m = ((D + 23) / 24 - (m + 1)) + 1 := by omega
      have hstep : start + (m : Int) * (24 * Hour) + 24 * Hour =
          start + ((m + 1 : Nat) : Int) * (24 * Hour) := by
        push_cast
        ring
      rw [hsplit, List.range'_succ]
      simp only [workingSlotsLoop]
      rw [if_pos hguard]
      have hih := ih (m + 1) (by omega)
      by_cases hw : wd (start + (m : Int) * (24 * Hour)) = 6 ∨
          wd (start + (m : Int) * (24 * Hour)) = 0
      · rw [if_pos hw, hstep, hih, List.flatMap_cons]
        have hd : daySlots wd fmtDay start m = [] := by
          unfold daySlots
          rw [if_pos hw]
        rw [hd, List.nil_append]
      · rw [if_neg hw, hstep, hih, List.flatMap_cons]
        have hd : daySlots wd fmtDay start m =
            slotPair fmtDay (start + (m : Int) * (24 * Hour)) := by
          unfold daySlots
          rw [if_neg hw]
        rw [hd]
    · have hguard : ¬ (start + (m : Int) * (24 * Hour) < start + (D : Int) * Hour) := by
        have h24 : D ≤ 24 * m := by omega
        simp only [Hour]
        push_cast
        omega
      have h0 : (D + 23) / 24 - m = 0 := by omega
      rw [h0]
      simp only [workingSlotsLoop]
      rw [if_neg hguard]
      rfl

theorem daySlots_lower (wd : Int → Nat) (fmtDay : Int → String) (start : Int) (k : Nat) :
    ∀ sl ∈ daySlots wd fmtDay start k,
      start + (k : Int) * (24 * Hour) ≤ sl.start ∧
      sl.start ≤ start + (k : Int) * (24 * Hour) + 6 * Hour := by
  intro sl hsl
  unfold daySlots at hsl
  split at hsl
  · cases hsl
  · simp only [slotPair, List.mem_cons, List.not_mem_nil, or_false] at hsl
    rcases hsl with h | h <;> subst h <;> constructor <;> simp [Hour]

theorem pairwise_flatMap_daySlots (wd : Int → Nat) (fmtDay : Int → String) (start : Int) :
    ∀ (n m : Nat),
      List.Pairwise (fun a b : Slot => a.start < b.start)
        ((List.range' m n).flatMap (daySlots wd fmtDay start)) ∧
      (∀ sl ∈ (List.range' m n).flatMap (daySlots wd fmtDay start),
        start + (m : Int) * (24 * Hour) ≤ sl.start) := by
  intro n
  induction n with
  | zero =>
    intro m
    exact ⟨List.Pairwise.nil, by intro sl hsl; cases hsl⟩
  | succ n ih =>
    intro m
    rw [List.range'_succ, List.flatMap_cons]
    obtain ⟨ihp, ihb⟩ := ih (m + 1)
    have hmono : start + ((m + 1 : Nat) : Int) * (24 * Hour) =
        start + (m : Int) * (24 * Hour) + 24 * Hour := by
      push_cast
      ring
    constructor
    · rw [List.pairwise_append]
      refine ⟨?_, ihp, ?_⟩
      · unfold daySlots
        split
        · exact List.Pairwise.nil
        · simp only [slotPair, List.pairwise_cons, List.mem_singleton,
            List.not_mem_nil, false_implies, implies_true, and_true, List.Pairwise.nil]
          intro sl hsl
          subst hsl
          simp only [Hour]
          omega
      · intro a ha b hb
        have h1 := (daySlots_lower wd fmtDay start m a ha).2
        have h2 := ihb b hb
        rw [hmono] at h2
        simp only [Hour] at h1 h2 ⊢
        omega
    · intro sl hsl
      rw [List.mem_append] at hsl
      rcases hsl with h | h
      · exact (daySlots_lower wd fmtDay start m sl h).1
      · have h2 := ihb sl h
        rw [hmono] at h2
        simp only [Hour] at h2 ⊢
        omega

/-- Claim C10: the slot generator emits, in order, for each of the
ceil(duration/24) window days whose weekday is neither Saturday (6) nor
Sunday (0), exactly one Morning slot spanning [0h,6h) of the day start
followed by one Afternoon slot spanning [6h,12h), and nothing for weekend
days; the slot start times are strictly increasing. -/
theorem workingSlots_C10_spec (wd : Int → Nat) (fmtDay : Int → String) (start : Int)
    (D : Nat) :
    workingSlots wd fmtDay start D =
      (List.range ((D + 23) / 24)).flatMap (daySlots wd fmtDay start) ∧
    List.Pairwise (fun a b : Slot => a.start < b.start) (workingSlots wd fmtDay start D) := by
  have h0 : start + ((0 : Nat) : Int) * (24 * Hour) = start := by
    push_cast
    ring
  have heq : workingSlots wd fmtDay start D =
      (List.range ((D + 23) / 24)).flatMap (daySlots wd fmtDay start) := by
    unfold workingSlots
    have hl := workingSlotsLoop_eq wd fmtDay start D (D + 1) 0 (by omega)
    rw [h0] at hl
    rw [hl, List.range_eq_range', Nat.sub_zero]
  refine ⟨heq, ?_⟩
  rw [heq, List.range_eq_range']
  exact (pairwise_flatMap_daySlots wd fmtDay start ((D + 23) / 24) 0).1

end Calstats
